import Mathlib

/-!
Verification development for the dependency-resolution core of pkgcore
(src/pkgcore/graph/resolver.py).

Modelling conventions:
* Every Python stack (a list whose top is the LAST element) is embedded as a
  Lean list whose HEAD is the top.  Hence Python `stack[-1]` is `List.head?`,
  `stack[-2]` is the second element, `stack.append x` is `x :: stack`,
  `stack.pop(-1)` and `stack[:-1]` are `List.tail`, and a Python PREFIX test
  `x[:len(s)] == s` becomes a SUFFIX test `List.isSuffixOf s x` here.  The
  stack collection `search_stacks` is embedded the same way: the current
  stack (Python `search_stacks[-1]`) is the head, `append` is cons.
* Python dicts become association lists (`alookup` / `aset` / `aerase`).
* Exceptions become the `Err` sum; every operation returns a `Res` that also
  carries the state at the moment an exception escapes, since Python leaves
  all mutations made before the raise in place.
* The interactive debugger breakpoints (`pdb.set_trace()`) are no-ops; the
  `assert` statements of the source are modelled as `Err.assertionError`.
* `choice_point` lives in pkgcore/graph/choice_point.py which is not part of
  the sources; its operations are modelled from the spec (see the doc
  comments on `choice_point.reduce_atoms` and friends).
-/

/-- Association-list lookup, first binding wins (models a Python dict). -/
def alookup {α β : Type} [DecidableEq α] : List (α × β) → α → Option β
  | [], _ => none
  | e :: rest, k => if e.1 = k then some e.2 else alookup rest k

/-- Association-list update: replace the binding of `k` if present, else
append (models Python `d[k] = v`). -/
def aset {α β : Type} [DecidableEq α] : List (α × β) → α → β → List (α × β)
  | [], k, v => [(k, v)]
  | e :: rest, k, v => if e.1 = k then (k, v) :: rest else e :: aset rest k v

/-- Association-list deletion (models Python `del d[k]`). -/
def aerase {α β : Type} [DecidableEq α] (m : List (α × β)) (k : α) :
    List (α × β) :=
  m.filter (fun e => e.1 ≠ k)

/-- An atom: opaque requirement descriptor with a grouping `key`, a `blocks`
flag, and a tag `uid` standing for the rest of its (structural) identity. -/
structure Atom where
  key : Nat
  blocks : Bool
  uid : Nat
deriving DecidableEq

/-- A concrete package: its dependency and runtime-dependency atom lists
(the only capabilities the resolver core reads from a package). -/
structure Pkg where
  pid : Nat
  depends : List Atom
  rdepends : List Atom
deriving DecidableEq

/-- Modelled from the spec: `choice_point` (pkgcore/graph/choice_point.py is
not among the sources).  An ordered candidate list for one atom; the current
package is the head of the remaining candidates; empty once exhausted. -/
structure choice_point where
  atom : Atom
  cands : List Pkg
deriving DecidableEq

/-- Modelled from the spec: the current package of a choice point is the head
of its remaining candidates; accessing it on an empty choice point raises
IndexError in the source (callers below branch on emptiness first). -/
def choice_point.current_pkg (c : choice_point) : Option Pkg :=
  c.cands.head?

/-- Modelled from the spec: reduction removes the candidate(s) that require
the given atom and returns the atoms that were required by a removed
candidate and are no longer required by any remaining candidate
(released provides are ignored: the source never uses them). -/
def choice_point.reduce_atoms (c : choice_point) (a : Atom) :
    choice_point × List Atom :=
  let needs : Pkg → Bool := fun p => p.depends.contains a || p.rdepends.contains a
  let removed := c.cands.filter needs
  let kept := c.cands.filter (fun p => !(needs p))
  let stillNeeded : Atom → Bool :=
    fun x => kept.any (fun p => p.depends.contains x || p.rdepends.contains x)
  let released := ((removed.map (fun p => p.depends ++ p.rdepends)).flatten).filter
    (fun x => !(stillNeeded x))
  ({ c with cands := kept }, released)

/-- Exceptions of the source, as observable outcomes.  `fuelOut` is a
modelling artifact for the expandable work queue of `unsatisfiable_atom`
(it never occurs when enough fuel is supplied). -/
inductive Err where
  | assertionError
  | keyError
  | indexError
  | nameError
  | typeError
  | fuelOut
  | noSolution (a : Atom) (msg : String)
deriving DecidableEq

/-- What `iterate_unresolved_atoms` hands to the caller at a `yield`. -/
inductive Yielded where
  | atom (a : Atom)
  | cycleConstraint (m a : Atom)
deriving DecidableEq

/-- The resolver state (fields of the `resolver` object, plus `last_t`, the
persistent generator-local `t` of `iterate_unresolved_atoms`, which the dead
blocker branch reads even when the current iteration never assigned it). -/
structure RState where
  search_stacks : List (List Atom)
  current_atom : Option Atom
  false_atoms : List Atom
  atoms : List (Atom × (choice_point × List (List Atom)))
  pkg_atoms : List (Nat × List choice_point)
  last_t : Option (List Atom)
deriving DecidableEq

/-- Outcome of one operation: normal completion, generator exhaustion, a
yield, or an escaped exception (carrying the state at the raise). -/
inductive Res where
  | ok (st : RState)
  | done (st : RState)
  | yielded (y : Yielded) (st : RState)
  | raised (e : Err) (st : RState)
deriving DecidableEq

def Res.state : Res → RState
  | .ok st => st
  | .done st => st
  | .yielded _ st => st
  | .raised _ st => st

def yieldedOf : Res → Option Yielded
  | .yielded y _ => some y
  | _ => none

/-- The fresh resolver state (`resolver.__init__`). -/
def initState : RState :=
  { search_stacks := [[]], current_atom := none, false_atoms := [],
    atoms := [], pkg_atoms := [], last_t := none }

/-- `resolver.choice_point_is_complete`: every dependency and
runtime-dependency atom of the current candidate has an entry.  On an empty
choice point the source raises IndexError; all call sites below branch on
emptiness first, so the `[]` arm is never observable. -/
def choice_point_is_complete (st : RState) (c : choice_point) : Bool :=
  match c.cands with
  | [] => false
  | p :: _ =>
    p.depends.all (fun x => (alookup st.atoms x).isSome) &&
    p.rdepends.all (fun x => (alookup st.atoms x).isSome)

/-- Core of `resolver.ref_stack_for_atom` under a passing assert: register
`stack` as a referencing stack of `atom` unless already recorded. -/
def ref_core (st : RState) (atom : Atom) (stack : List Atom) : RState :=
  match alookup st.atoms atom with
  | none => st
  | some (cp, refs) =>
    if stack ∈ refs then st
    else { st with atoms := aset st.atoms atom (cp, refs ++ [stack]) }

/-- `resolver.ref_stack_for_atom`: assert the atom is tracked, then register
the (tuple-normalized) stack unless it is already among the referencing
stacks. -/
def ref_stack_for_atom (st : RState) (atom : Atom) (stack : List Atom) : Res :=
  if (alookup st.atoms atom).isNone then .raised .assertionError st
  else .ok (ref_core st atom stack)

/-- Core of `resolver.deref_stack_for_atom` under a passing assert: drop
every referencing stack of `atom` extending the given stack (a Python prefix,
a suffix in this embedding); when none survive, delete the entry, drop the
atom's choice points from `pkg_atoms[atom.key]` and the key itself when it
empties. -/
def deref_core (st : RState) (atom : Atom) (stack : List Atom) : RState :=
  match alookup st.atoms atom with
  | none => st
  | some (cp, refs) =>
    let kept := refs.filter (fun x => !(List.isSuffixOf stack x))
    if kept.isEmpty then
      let pa :=
        match alookup st.pkg_atoms atom.key with
        | none => st.pkg_atoms
        | some cps =>
          let l := cps.filter (fun x => x.atom ≠ atom)
          if l.isEmpty then aerase st.pkg_atoms atom.key
          else aset st.pkg_atoms atom.key l
      { st with atoms := aerase st.atoms atom, pkg_atoms := pa }
    else { st with atoms := aset st.atoms atom (cp, kept) }

/-- `resolver.deref_stack_for_atom`, including its leading assert. -/
def deref_stack_for_atom (st : RState) (atom : Atom) (stack : List Atom) : Res :=
  if (alookup st.atoms atom).isNone then .raised .assertionError st
  else .ok (deref_core st atom stack)

/-- The released-atoms loop of `unsatisfiable_atom` (lines 174-178): deref
each released atom still present in the graph from the stack `t`; presence is
re-checked against the evolving state, as the lazy generator expression in
the source does. -/
def derefFold (st : RState) (t : List Atom) : List Atom → RState
  | [] => st
  | x :: xs =>
    if (alookup st.atoms x).isSome then derefFold (deref_core st x t) t xs
    else derefFold st t xs

/-- Outcome of processing one referencing stack inside `unsatisfiable_atom`:
either an escaped exception, or the new state plus stacks appended to the
expandable work queue. -/
inductive StackOut where
  | raise (e : Err) (st : RState)
  | next (st : RState) (cascade : List (List Atom))
deriving DecidableEq

def StackOut.stateOf : StackOut → RState
  | .raise _ st => st
  | .next st _ => st

/-- The current stack pushed by a `StackOut`, if it completed normally. -/
def stackPushedTop : StackOut → Option (List Atom)
  | .next st _ => st.search_stacks.head?
  | .raise _ _ => none

/-- The body of the `for stack in istack` loop of `unsatisfiable_atom`
(lines 164-186) for one referencing stack `s`.  A stack shorter than two
elements raises IndexError at the parent lookup `stack[-2]`, which sits
OUTSIDE the try/except of the source.  An empty parent choice point makes the
try body raise IndexError, caught to `was_complete = False` and
`released = (stack[-1],)` with no reduction.  After dereferencing the
released atoms from `t = stack[:-1]`: an emptied parent cascades `[t]` onto
the work queue; a parent complete before but incomplete now schedules `t` as
a brand-new search stack. -/
def unsatStack (st : RState) (s : List Atom) : StackOut :=
  match s with
  | top :: parent :: _ =>
    (match alookup st.atoms parent with
     | none => .raise .keyError st
     | some (c, prefs) =>
       if c.cands.isEmpty then
         let t := s.tail
         let st2 := derefFold { st with atoms := aset st.atoms parent (c, prefs) } t [top]
         .next st2 [t]
       else
         let was_complete := choice_point_is_complete st c
         let c2 := (c.reduce_atoms top).1
         let rel := (c.reduce_atoms top).2
         let t := s.tail
         let st2 := derefFold { st with atoms := aset st.atoms parent (c2, prefs) } t rel
         if c2.cands.isEmpty then .next st2 [t]
         else if was_complete && !(choice_point_is_complete st2 c2) then
           .next { st2 with search_stacks := t :: st2.search_stacks } []
         else .next st2 [])
  | _ => .raise .indexError st

/-- The epilogue of `unsatisfiable_atom` once the work queue is drained:
`grab_next_stack` runs (IndexError on an empty collection) and a recorded
`bail` is raised as NoSolution. -/
def unsatFinish (atom : Atom) (msg : String) (st : RState) (bail : Bool) : Res :=
  match st.search_stacks with
  | [] => .raised .indexError st
  | _ => if bail then .raised (.noSolution atom msg) st else .ok st

/-- The `for stack in istack` work queue of `unsatisfiable_atom`: an empty
stack records the pending NoSolution (`bail`) just before the parent lookup
crashes with IndexError; cascades extend the queue at its end. -/
def unsatLoop (atom : Atom) (msg : String) :
    Nat → RState → List (List Atom) → Bool → Res
  | _, st, [], bail => unsatFinish atom msg st bail
  | 0, st, _ :: _, _ => .raised .fuelOut st
  | Nat.succ fuel, st, s :: rest, bail =>
    let bail2 := bail || s.isEmpty
    match unsatStack st s with
    | .raise e st2 => .raised e st2
    | .next st2 casc => unsatLoop atom msg fuel st2 (rest ++ casc) bail2

/-- `resolver.unsatisfiable_atom`: assert the atom is the current focus, add
it to `false_atoms` when permanent, then drain the expandable queue seeded
with the atom's referencing stacks. -/
def unsatisfiable_atom (st : RState) (atom : Atom) (msg : String)
    (permenant : Bool) (fuel : Nat) : Res :=
  if st.current_atom ≠ some atom then .raised .assertionError st
  else
    let st1 :=
      if permenant then
        { st with false_atoms :=
            if atom ∈ st.false_atoms then st.false_atoms
            else st.false_atoms ++ [atom] }
      else st
    match alookup st1.atoms atom with
    | none => .raised .keyError st1
    | some (_, refs) => unsatLoop atom msg fuel st1 refs false

/-- `resolver.satisfy_atom`: assert the atom tops the current stack, install
a fresh choice point over the supplied candidates, index it under the key,
register the current stack as a referencing stack, and on an empty choice
point run the unsatisfiability protocol (with the source's defaults,
`msg = "None supplied"` and `permenant = True`) and pop the current stack's
top when the protocol left the current stack identical (no stack was
spawned). -/
def satisfy_atom (st : RState) (atom : Atom) (ms : List Pkg) (fuel : Nat) : Res :=
  match st.search_stacks with
  | [] => .raised .typeError st
  | cur :: _ =>
    match cur with
    | [] => .raised .indexError st
    | top :: _ =>
      if top ≠ atom then .raised .assertionError st
      else
        let c : choice_point := ⟨atom, ms⟩
        let st1 := { st with
          atoms := aset st.atoms atom (c, []),
          pkg_atoms := aset st.pkg_atoms atom.key
            ((alookup st.pkg_atoms atom.key).getD [] ++ [c]) }
        match ref_stack_for_atom st1 atom cur with
        | .ok st2 =>
          if ms.isEmpty then
            let n := st2.search_stacks.length
            match unsatisfiable_atom st2 atom "None supplied" true fuel with
            | .ok st3 =>
              if st3.search_stacks.length = n then
                match st3.search_stacks with
                | [] => .ok st3
                | c0 :: r0 => .ok { st3 with search_stacks := c0.tail :: r0 }
              else .ok st3
            | r => r
          else .ok st2
        | r => r

/-- Pop the top of the stack sitting at position `j` of the stack collection
(the blocker branch pops the stack object it captured before the protocol
ran, which may no longer be the current one if new stacks were spawned). -/
def popAtStack : Nat → List (List Atom) → List (List Atom)
  | _, [] => []
  | 0, s :: r => s.tail :: r
  | Nat.succ j, s :: r => s :: popAtStack j r

/-- The `elif a.blocks` branch of `iterate_unresolved_atoms` (lines 93-113).
After the debugger breakpoint: scan the live choice points under the
blocker's key; on the first non-empty one whose current package the blocker
matches, run the unsatisfiability protocol non-permanently and pop the
captured stack; otherwise register an empty choice point for the blocker,
reference the stale generator-local `t` (NameError when it was never
assigned) and pop.  Both exits re-run the trailing stack assert. -/
def blocker_branch (amatch : Atom → Pkg → Bool) (fuel : Nat) (st : RState)
    (a : Atom) : Res :=
  let cps := (alookup st.pkg_atoms a.key).getD []
  let conflict := cps.any (fun x =>
    match x.cands with
    | [] => false
    | p :: _ => amatch a p)
  if conflict then
    let st1 := { st with current_atom := some a }
    let n := st1.search_stacks.length
    match unsatisfiable_atom st1 a "backtracking for blocker" false fuel with
    | .ok st2 =>
      let st3 := { st2 with
        search_stacks := popAtStack (st2.search_stacks.length - n) st2.search_stacks }
      match st3.search_stacks with
      | [] => .ok st3
      | c0 :: _ =>
        if c0.any (·.blocks) then .raised .assertionError st3 else .ok st3
    | r => r
  else
    let st1 := { st with atoms := aset st.atoms a (⟨a, []⟩, []) }
    match st1.last_t with
    | none => .raised .nameError st1
    | some t =>
      match ref_stack_for_atom st1 a t with
      | .ok st2 =>
        let st3 := { st2 with
          search_stacks :=
            match st2.search_stacks with
            | [] => []
            | c0 :: r0 => c0.tail :: r0 }
        match st3.search_stacks with
        | [] => .ok st3
        | c0 :: _ =>
          if c0.any (·.blocks) then .raised .assertionError st3 else .ok st3
      | r => r

/-- Lines 82-116 of `iterate_unresolved_atoms`: something was missing; `m`
(the stack top) becomes the focus; a cycle yields the synthetic constraint
built from the focus and `a` (the top at the start of the iteration); a
blocking `a` enters the blocker branch; otherwise `m` is yielded. -/
def missing_branch (amatch : Atom → Pkg → Bool) (fuel : Nat) (st : RState)
    (a : Atom) : Res :=
  match st.search_stacks with
  | [] => .raised .indexError st
  | cur :: _ =>
    match cur with
    | [] => .raised .indexError st
    | m :: tl =>
      let st0 := { st with current_atom := some m }
      if m ∈ tl then .yielded (.cycleConstraint m a) st0
      else if a.blocks then blocker_branch amatch fuel st0 a
      else .yielded (.atom m) st0

/-- The dependency scan of lines 71-80: walk the current candidate's
dependency and runtime-dependency atoms, registering the captured stack `t`
for each tracked one, and stop at the first untracked one. -/
def scanDeps (st : RState) (t : List Atom) : List Atom → RState × Option Atom
  | [] => (st, none)
  | x :: xs =>
    match alookup st.atoms x with
    | none => (st, some x)
    | some _ => scanDeps (ref_core st x t) t xs

/-- One iteration of the `while self.search_stacks` loop of
`resolver.iterate_unresolved_atoms`.  An empty current stack is popped
(`.done` when the collection empties).  A stack containing any blocking atom
fails the leading assert.  An untracked top goes straight to the missing
branch; a tracked top has its current candidate's dependencies scanned
(IndexError on an exhausted choice point), pushing the first untracked one,
or is popped when everything is satisfied (re-running the trailing assert).
Yield suspensions return `.yielded`; the trailing assert of a yielding
iteration is subsumed by the leading assert of the next call, which checks
the same stack. -/
def iterate_step (amatch : Atom → Pkg → Bool) (fuel : Nat) (st : RState) : Res :=
  match st.search_stacks with
  | [] => .done st
  | cur :: rest =>
    match cur with
    | [] =>
      if rest.isEmpty then .done { st with search_stacks := rest }
      else .ok { st with search_stacks := rest }
    | a :: _ =>
      if cur.any (·.blocks) then .raised .assertionError st
      else
        match alookup st.atoms a with
        | none => missing_branch amatch fuel st a
        | some (c, _) =>
          let st0 := { st with last_t := some cur }
          match c.cands with
          | [] => .raised .indexError st0
          | p :: _ =>
            let sr := scanDeps st0 cur (p.depends ++ p.rdepends)
            match sr.2 with
            | some x =>
              missing_branch amatch fuel
                { sr.1 with current_atom := some x,
                            search_stacks := (x :: cur) :: rest } a
            | none =>
              let st2 := { sr.1 with search_stacks := cur.tail :: rest }
              if cur.tail.any (·.blocks) then .raised .assertionError st2
              else .ok st2

/-- `resolver.add_root_atom`: an untracked atom starts a new single-element
search stack which becomes current; a tracked atom takes the branch that
evaluates the undefined name `h` (line 37), raising NameError before any
mutation. -/
def add_root_atom (st : RState) (atom : Atom) : Res :=
  if (alookup st.atoms atom).isSome then .raised .nameError st
  else .ok { st with search_stacks := [atom] :: st.search_stacks }

/-- States reachable from the fresh resolver through the public operations:
adding roots, traversal iterations, candidate supply and caller-initiated
unsatisfiability.  Exceptions leave their partially-mutated state, which is
therefore also reachable. -/
inductive Reach : RState → Prop where
  | init : Reach initState
  | root (st : RState) (a : Atom) : Reach st → Reach (add_root_atom st a).state
  | step (st : RState) (amatch : Atom → Pkg → Bool) (fuel : Nat) :
      Reach st → Reach (iterate_step amatch fuel st).state
  | sat (st : RState) (a : Atom) (ms : List Pkg) (fuel : Nat) :
      Reach st → Reach (satisfy_atom st a ms fuel).state
  | fail (st : RState) (a : Atom) (msg : String) (perm : Bool) (fuel : Nat) :
      Reach st → Reach (unsatisfiable_atom st a msg perm fuel).state

/-! Concrete atoms, packages and traces used by the claim theorems. -/

/-- A match predicate that never matches (no blockers fire in the traces). -/
def amF : Atom → Pkg → Bool := fun _ _ => false

/-- A match predicate that always matches (used for the blocker scenario). -/
def amT : Atom → Pkg → Bool := fun _ _ => true

def aR : Atom := ⟨0, false, 0⟩
def aC1 : Atom := ⟨1, false, 1⟩
def aB : Atom := ⟨2, false, 2⟩
def aR2 : Atom := ⟨3, false, 3⟩

def pkgP : Pkg := ⟨0, [aC1], []⟩
def pkgQ1 : Pkg := ⟨1, [aB], []⟩
def pkgQ2 : Pkg := ⟨2, [], []⟩
def pkgR2 : Pkg := ⟨3, [aB], []⟩

/-- Session trace: root `aR` is satisfied by `pkgP` (needs `aC1`), `aC1` by
`[pkgQ1, pkgQ2]` (the first needs `aB`), `aB` gets no candidates — which
backtracks `aC1` onto `pkgQ2` and memoizes `aB` in `false_atoms` — the run
completes, and a second root `aR2` satisfied by `pkgR2` needs `aB` again. -/
def s1 : RState := (add_root_atom initState aR).state
def s2 : RState := (iterate_step amF 9 s1).state
def s3 : RState := (satisfy_atom s2 aR [pkgP] 9).state
def s4 : RState := (iterate_step amF 9 s3).state
def s5 : RState := (satisfy_atom s4 aC1 [pkgQ1, pkgQ2] 9).state
def s6 : RState := (iterate_step amF 9 s5).state
def s7 : RState := (satisfy_atom s6 aB [] 9).state
def s8 : RState := (iterate_step amF 9 s7).state
def s9 : RState := (iterate_step amF 9 s8).state
def s10 : RState := (iterate_step amF 9 s9).state
def s11 : RState := (add_root_atom s10 aR2).state
def s12 : RState := (iterate_step amF 9 s11).state
def s13 : RState := (satisfy_atom s12 aR2 [pkgR2] 9).state

/-- A state whose root atom `aR` carries an empty (root-level) referencing
stack, the configuration §4.3 describes for a failed root requirement. -/
def stC1 : RState :=
  { search_stacks := [[aR]], current_atom := some aR, false_atoms := [],
    atoms := [(aR, (⟨aR, [pkgQ2]⟩, [[]]))], pkg_atoms := [], last_t := none }

/-- A blocking atom sharing `aR`'s key. -/
def aBlk : Atom := ⟨0, true, 9⟩

def cpR : choice_point := ⟨aR, [pkgQ2]⟩

/-- The spec's blocker-conflict scenario: the focus is the blocker `aBlk`
(top of the current stack, no ResolutionEntry) while a live choice point
under its key has a chosen package that the blocker matches (`amT`). -/
def stC4 : RState :=
  { search_stacks := [[aBlk]], current_atom := none, false_atoms := [],
    atoms := [(aR, (cpR, [[aR]]))], pkg_atoms := [(0, [cpR])], last_t := none }

/-- A state ready for `satisfy_atom aB []`: `aB` tops the current stack and
is the focus. -/
def stC2w : RState :=
  { search_stacks := [[aB, aR]], current_atom := some aB, false_atoms := [],
    atoms := [(aR, (⟨aR, [pkgP]⟩, [[aR]]))], pkg_atoms := [], last_t := none }

/-- A state with two referencing stacks for `aR`, one extending the
(Python) prefix `[aC1, aR]` and one not. -/
def stC6w : RState :=
  { search_stacks := [[]], current_atom := none, false_atoms := [],
    atoms := [(aR, (cpR, [[aR], [aB, aC1, aR]]))],
    pkg_atoms := [(0, [cpR])], last_t := none }

def aP : Atom := ⟨4, false, 4⟩
def aX : Atom := ⟨5, false, 5⟩
def aY : Atom := ⟨6, false, 6⟩
def aRt : Atom := ⟨7, false, 7⟩
def pkgU1 : Pkg := ⟨4, [aX], []⟩
def pkgU2 : Pkg := ⟨5, [aY], []⟩
def cpP7 : choice_point := ⟨aP, [pkgU1, pkgU2]⟩

/-- A state in which reducing `aP`'s choice point by `aX` flips it from
complete (current `pkgU1`, whose dependency `aX` is tracked) to incomplete
(new current `pkgU2`, whose dependency `aY` is untracked). -/
def stC7w : RState :=
  { search_stacks := [[]], current_atom := none, false_atoms := [],
    atoms := [(aP, (cpP7, [[aP, aRt]])), (aX, (⟨aX, [pkgQ2]⟩, [[aX, aP, aRt]]))],
    pkg_atoms := [], last_t := none }

/-- A current stack whose untracked top `aC1` recurs below: a cycle. -/
def stC8w : RState :=
  { search_stacks := [[aC1, aR, aC1]], current_atom := none, false_atoms := [],
    atoms := [], pkg_atoms := [], last_t := none }

/-- The no-blocker-mid-stack property of one stack: every element below the
top (the head, in this embedding) has `blocks = false`. -/
def stackOK (s : List Atom) : Prop := ∀ b ∈ s.tail, b.blocks = false

/-- Every referencing stack recorded in an atoms map satisfies `stackOK`. -/
def refsOKl (m : List (Atom × (choice_point × List (List Atom)))) : Prop :=
  ∀ e ∈ m, ∀ r ∈ e.2.2, stackOK r

/-- The work-queue extension produced by one protocol step. -/
def StackOut.cascOf : StackOut → List (List Atom)
  | .raise _ _ => []
  | .next _ casc => casc

/-! Shared lemmas about the association-list helpers and the state threading
of the unsatisfiability protocol. -/

theorem alookup_aset_self {α β : Type} [DecidableEq α] (m : List (α × β))
    (k : α) (v : β) : alookup (aset m k v) k = some v := by
  induction m with
  | nil => simp [aset, alookup]
  | cons e rest ih =>
    by_cases he : e.1 = k
    · simp [aset, alookup, he]
    · simp [aset, alookup, he, ih]

theorem alookup_aerase_self {α β : Type} [DecidableEq α] (m : List (α × β))
    (k : α) : alookup (aerase m k) k = none := by
  induction m with
  | nil => simp [aerase, alookup]
  | cons e rest ih =>
    by_cases he : e.1 = k
    · simpa [aerase, List.filter, he] using ih
    · simpa [aerase, List.filter, he, alookup] using ih

theorem mem_aset {α β : Type} [DecidableEq α] {m : List (α × β)} {k : α}
    {v : β} {e : α × β} (h : e ∈ aset m k v) : e = (k, v) ∨ e ∈ m := by
  induction m with
  | nil => simpa [aset] using h
  | cons e0 rest ih =>
    by_cases he : e0.1 = k
    · simp only [aset, if_pos he, List.mem_cons] at h
      rcases h with h | h
      · exact .inl h
      · exact .inr (List.mem_cons_of_mem _ h)
    · simp only [aset, if_neg he, List.mem_cons] at h
      rcases h with h | h
      · exact .inr (h ▸ List.mem_cons_self _ _)
      · rcases ih h with h2 | h2
        · exact .inl h2
        · exact .inr (List.mem_cons_of_mem _ h2)

theorem mem_aerase {α β : Type} [DecidableEq α] {m : List (α × β)} {k : α}
    {e : α × β} (h : e ∈ aerase m k) : e ∈ m :=
  List.mem_of_mem_filter h

/-- `deref_core` never touches `false_atoms`, `current_atom`,
`search_stacks` or `last_t`. -/
theorem deref_core_frame (st : RState) (a : Atom) (s : List Atom) :
    (deref_core st a s).false_atoms = st.false_atoms ∧
    (deref_core st a s).current_atom = st.current_atom ∧
    (deref_core st a s).search_stacks = st.search_stacks ∧
    (deref_core st a s).last_t = st.last_t := by
  unfold deref_core
  rcases h : alookup st.atoms a with _ | ⟨cp, refs⟩ <;> simp
  split <;> simp

theorem derefFold_frame (t : List Atom) (l : List Atom) (st : RState) :
    (derefFold st t l).false_atoms = st.false_atoms ∧
    (derefFold st t l).current_atom = st.current_atom ∧
    (derefFold st t l).search_stacks = st.search_stacks ∧
    (derefFold st t l).last_t = st.last_t := by
  induction l generalizing st with
  | nil => simp [derefFold]
  | cons x xs ih =>
    unfold derefFold
    split
    · obtain ⟨h1, h2, h3, h4⟩ := ih (deref_core st x t)
      obtain ⟨g1, g2, g3, g4⟩ := deref_core_frame st x t
      exact ⟨h1.trans g1, h2.trans g2, h3.trans g3, h4.trans g4⟩
    · exact ih st

/-- Processing one referencing stack never touches `false_atoms`. -/
theorem unsatStack_false_atoms (st : RState) (s : List Atom) :
    (unsatStack st s).stateOf.false_atoms = st.false_atoms := by
  rcases s with _ | ⟨top, _ | ⟨parent, rest2⟩⟩
  · rfl
  · rfl
  · simp only [unsatStack]
    split
    · rfl
    · split
      · exact (derefFold_frame _ _ _).1
      · split
        · exact (derefFold_frame _ _ _).1
        · split
          · exact (derefFold_frame _ _ _).1
          · exact (derefFold_frame _ _ _).1

theorem unsatFinish_state (a : Atom) (msg : String) (st : RState) (bail : Bool) :
    (unsatFinish a msg st bail).state = st := by
  unfold unsatFinish
  cases hss : st.search_stacks with
  | nil => rfl
  | cons s0 r0 => cases bail <;> rfl

/-- Draining the work queue never touches `false_atoms`. -/
theorem unsatLoop_false_atoms (a : Atom) (msg : String) (fuel : Nat) :
    ∀ (st : RState) (wl : List (List Atom)) (bail : Bool),
      (unsatLoop a msg fuel st wl bail).state.false_atoms = st.false_atoms := by
  induction fuel with
  | zero =>
    intro st wl bail
    cases wl with
    | nil => rw [unsatLoop, unsatFinish_state]
    | cons s rest => rfl
  | succ fuel ih =>
    intro st wl bail
    cases wl with
    | nil => rw [unsatLoop, unsatFinish_state]
    | cons s rest =>
      rw [unsatLoop]
      have hfa := unsatStack_false_atoms st s
      rcases h : unsatStack st s with ⟨e, st2⟩ | ⟨st2, casc⟩ <;>
        rw [h] at hfa <;> simp only [StackOut.stateOf] at hfa
      · simpa [Res.state] using hfa
      · simp only [ih]
        exact hfa

/-- A permanent `unsatisfiable_atom` call that passes the focus assert puts
the atom into `false_atoms`, whatever happens afterwards. -/
theorem unsat_perm_mem (st : RState) (atom : Atom) (msg : String) (fuel : Nat)
    (hc : st.current_atom = some atom) :
    atom ∈ (unsatisfiable_atom st atom msg true fuel).state.false_atoms := by
  unfold unsatisfiable_atom
  rw [hc]
  have hmem : atom ∈ (if atom ∈ st.false_atoms then st.false_atoms
      else st.false_atoms ++ [atom]) := by
    split
    · assumption
    · simp
  simp only [ne_eq, not_true_eq_false, if_false, reduceIte, if_true]
  rcases h : alookup (RState.atoms { st with false_atoms :=
      if atom ∈ st.false_atoms then st.false_atoms
      else st.false_atoms ++ [atom] }) atom with _ | ⟨cp, refs⟩
  · simpa [Res.state] using hmem
  · simpa [unsatLoop_false_atoms] using hmem

/-! Claim theorems. -/

/-- C1: the claim says that on an empty referencing stack (a root-level
requirement) the protocol records a NoSolution tagged with the reason,
finishes draining the queue, and only then raises NoSolution.  The code
instead sets the pending NoSolution and immediately crashes: the parent
lookup `stack[-2]` sits outside the try/except and raises IndexError on the
empty stack, aborting cleanup and losing the NoSolution.  This theorem
evaluates the protocol at a state whose atom has an empty (root) referencing
stack: the outcome is IndexError, not NoSolution, with the queue abandoned. -/
theorem C1_root_unsat_raises_index_error :
    unsatisfiable_atom stC1 aR "root requirement failed" true 9 =
      Res.raised Err.indexError { stC1 with false_atoms := [aR] } := by
  decide

/-- C2 counterexample: the claim says `satisfy(atom, [])` does not itself
add the atom to FalseAtoms.  At the concrete reachable state `s6` (the third
step of the linear trace), `aB` is not in FalseAtoms before the call and is
in FalseAtoms after it: `satisfy_atom` invokes `unsatisfiable_atom` with the
source default `permenant=True`. -/
theorem C2_empty_satisfy_marks_false_cex :
    aB ∉ s6.false_atoms ∧
    aB ∈ (satisfy_atom s6 aB [] 9).state.false_atoms := by
  decide

/-- C3: the claim says an atom added to FalseAtoms is never re-yielded in
the same session.  In the concrete trace, `aB` enters FalseAtoms when its
candidate list is empty (state `s7`), the session continues, a second root
`aR2` depends on `aB`, and the traversal yields `aB` again: the source
writes `false_atoms` but never consults it. -/
theorem C3_false_atom_yielded_again :
    aB ∈ s13.false_atoms ∧
    yieldedOf (iterate_step amF 9 s13) = some (Yielded.atom aB) := by
  decide

/-- C4: the claim says a blocking focus atom matching a live chosen package
triggers the non-permanent unsatisfiability protocol and is popped.  The
code never gets there: the assert at the top of the traversal loop rejects
ANY stack containing a `blocks=true` atom, even as its topmost element, so
the step raises AssertionError with the state untouched (the blocker branch
is unreachable; even absent the assert, the protocol's `self.atoms[atom]`
lookup would raise KeyError since the blocker has no entry). -/
theorem C4_blocker_step_asserts :
    aBlk.blocks = true ∧
    (alookup stC4.pkg_atoms aBlk.key).getD [] = [cpR] ∧
    amT aBlk pkgQ2 = true ∧
    iterate_step amT 9 stC4 = Res.raised Err.assertionError stC4 := by
  decide

/-- C5: the claim says `add_root(atom)` on an already-tracked atom only adds
a root-level (empty) referencing stack.  The tracked branch of the source
evaluates the undefined name `h` (line 37), so it raises NameError and adds
nothing: here `aR` is tracked in the trace state `s3` and the call fails. -/
theorem C5_add_root_tracked_raises_name_error :
    (alookup s3.atoms aR).isSome = true ∧
    add_root_atom s3 aR = Res.raised Err.nameError s3 := by
  decide

/-- C2 amended: when `satisfy(atom, candidates)` yields an empty choice
point, the call invokes the unsatisfiability protocol with the source's
default `permenant=True`, so the atom IS added to FalseAtoms (provided the
call's asserts pass: the atom tops the current stack and is the focus),
whether the protocol then returns or raises. -/
theorem C2_empty_satisfy_adds_false_atom (st : RState) (atom : Atom)
    (tl : List Atom) (rest : List (List Atom)) (fuel : Nat)
    (hs : st.search_stacks = (atom :: tl) :: rest)
    (hc : st.current_atom = some atom) :
    atom ∈ (satisfy_atom st atom [] fuel).state.false_atoms := by
  obtain ⟨ss, ca, fa, ats, pas, lt⟩ := st
  dsimp only at hs hc
  subst hs
  subst hc
  simp only [satisfy_atom, ne_eq, not_true_eq_false, if_false, reduceIte,
    ref_stack_for_atom, alookup_aset_self, Option.isNone_some,
    Bool.false_eq_true, ref_core, List.not_mem_nil, List.isEmpty_nil]
  have hp := unsat_perm_mem
    { search_stacks := (atom :: tl) :: rest, current_atom := some atom,
      false_atoms := fa,
      atoms := aset (aset ats atom (⟨atom, []⟩, [])) atom
        (⟨atom, []⟩, [] ++ [atom :: tl]),
      pkg_atoms := aset pas atom.key
        ((alookup pas atom.key).getD [] ++ [⟨atom, []⟩]),
      last_t := lt } atom "None supplied" fuel rfl
  rcases hu : unsatisfiable_atom
    { search_stacks := (atom :: tl) :: rest, current_atom := some atom,
      false_atoms := fa,
      atoms := aset (aset ats atom (⟨atom, []⟩, [])) atom
        (⟨atom, []⟩, [] ++ [atom :: tl]),
      pkg_atoms := aset pas atom.key
        ((alookup pas atom.key).getD [] ++ [⟨atom, []⟩]),
      last_t := lt } atom "None supplied" true fuel with
    st3 | st3 | ⟨y, st3⟩ | ⟨e, st3⟩ <;>
    rw [hu] at hp <;> simp only [Res.state] at hp <;> dsimp only
  · split
    · rcases hss : st3.search_stacks with _ | ⟨c0, r0⟩ <;> dsimp only <;>
        exact hp
    · exact hp
  · exact hp
  · exact hp
  · exact hp

/-- C2 witness: the amended statement at the concrete state `stC2w`. -/
theorem C2_empty_satisfy_adds_false_atom_witness :
    aB ∈ (satisfy_atom stC2w aB [] 9).state.false_atoms :=
  C2_empty_satisfy_adds_false_atom stC2w aB [aR] [] 9 (by decide) (by decide)

/-- C6: `deref(atom, stack_prefix)` removes exactly the referencing stacks
extending the given prefix (a suffix in this embedding's stack order); when
some survive, the entry keeps its choice point and `pkg_atoms` is untouched;
when none survive, the entry is deleted, the atom's choice points leave
`pkg_atoms[atom.key]`, and the key is dropped once empty. -/
theorem C6_deref_exact (st : RState) (a : Atom) (spfx : List Atom)
    (cp : choice_point) (refs : List (List Atom))
    (h : alookup st.atoms a = some (cp, refs)) :
    deref_stack_for_atom st a spfx = Res.ok (deref_core st a spfx) ∧
    alookup (deref_core st a spfx).atoms a =
      (if (refs.filter (fun x => !(List.isSuffixOf spfx x))).isEmpty then none
       else some (cp, refs.filter (fun x => !(List.isSuffixOf spfx x)))) ∧
    ((refs.filter (fun x => !(List.isSuffixOf spfx x))).isEmpty = false →
      (deref_core st a spfx).atoms =
        aset st.atoms a (cp, refs.filter (fun x => !(List.isSuffixOf spfx x))) ∧
      (deref_core st a spfx).pkg_atoms = st.pkg_atoms) ∧
    ((refs.filter (fun x => !(List.isSuffixOf spfx x))).isEmpty = true →
      (deref_core st a spfx).atoms = aerase st.atoms a ∧
      alookup (deref_core st a spfx).pkg_atoms a.key =
        (if (((alookup st.pkg_atoms a.key).getD []).filter
              (fun x => x.atom ≠ a)).isEmpty then none
         else some (((alookup st.pkg_atoms a.key).getD []).filter
              (fun x => x.atom ≠ a)))) := by
  refine ⟨by simp [deref_stack_for_atom, h], ?_, ?_, ?_⟩ <;>
    simp only [deref_core, h]
  · rcases hk : (refs.filter (fun x => !(List.isSuffixOf spfx x))).isEmpty with _ | _
    · simp only [hk, Bool.false_eq_true, if_false, reduceIte]
      exact alookup_aset_self _ _ _
    · simp only [hk, if_true, reduceIte]
      exact alookup_aerase_self _ _
  · intro hk
    simp [hk]
  · intro hk
    simp only [hk, if_true, reduceIte]
    refine ⟨trivial, ?_⟩
    rcases hpk : alookup st.pkg_atoms a.key with _ | cps
    · simp [hpk]
    · simp only [hpk, Option.getD_some]
      rcases hl : (cps.filter (fun x => x.atom ≠ a)).isEmpty with _ | _
      · simp only [hl, Bool.false_eq_true, if_false, reduceIte]
        exact alookup_aset_self _ _ _
      · simp only [hl, if_true, reduceIte]
        exact alookup_aerase_self _ _

/-- C6 witness: dereferencing `aR` from the prefix `[aC1, aR]` (Python order
`(aR, aC1)`) at `stC6w` removes exactly the extending stack and keeps the
entry intact. -/
theorem C6_deref_exact_witness :
    deref_stack_for_atom stC6w aR [aC1, aR] =
      Res.ok (deref_core stC6w aR [aC1, aR]) ∧
    alookup (deref_core stC6w aR [aC1, aR]).atoms aR = some (cpR, [[aR]]) ∧
    (deref_core stC6w aR [aC1, aR]).pkg_atoms = stC6w.pkg_atoms := by
  have h := C6_deref_exact stC6w aR [aC1, aR] cpR [[aR], [aB, aC1, aR]]
    (by decide)
  refine ⟨h.1, ?_, ((h.2.2.1) (by decide)).2⟩
  have := h.2.1
  simpa using this

/-- C10: registering a referencing stack is idempotent: a stack already
recorded for a tracked atom leaves the whole state unchanged, and
registering the same stack twice equals registering it once. -/
theorem C10_ref_stack_idempotent (st : RState) (a : Atom) (stk : List Atom)
    (cp : choice_point) (refs : List (List Atom))
    (h : alookup st.atoms a = some (cp, refs)) :
    (stk ∈ refs → ref_stack_for_atom st a stk = Res.ok st) ∧
    ref_stack_for_atom (ref_stack_for_atom st a stk).state a stk =
      ref_stack_for_atom st a stk := by
  constructor
  · intro hm
    simp [ref_stack_for_atom, ref_core, h, hm]
  · by_cases hm : stk ∈ refs
    · simp [ref_stack_for_atom, ref_core, h, hm, Res.state]
    · simp only [ref_stack_for_atom, ref_core, h, hm, Option.isNone_some,
        Bool.false_eq_true, if_false, reduceIte, if_neg, Res.state,
        alookup_aset_self]
      simp [Res.state, alookup_aset_self]

/-- C10 witness: at the root state `s3`, the stack `[aR]` is already
recorded for `aR`, so re-registering leaves the state unchanged, and a
double registration of the unrecorded `[aC1, aR]` equals a single one. -/
theorem C10_ref_stack_idempotent_witness :
    (ref_stack_for_atom s3 aR [aR] = Res.ok s3) ∧
    ref_stack_for_atom (ref_stack_for_atom s3 aR [aC1, aR]).state aR [aC1, aR] =
      ref_stack_for_atom s3 aR [aC1, aR] := by
  have h1 := C10_ref_stack_idempotent s3 aR [aR] ⟨aR, [pkgP]⟩ [[aR]] (by decide)
  have h2 := C10_ref_stack_idempotent s3 aR [aC1, aR] ⟨aR, [pkgP]⟩ [[aR]] (by decide)
  exact ⟨h1.1 (by decide), h2.2⟩

/-- C7: while the unsatisfiability protocol processes a referencing stack
`s = top :: parent :: rest2` (Python `(..., parent, top)`), if the parent's
choice point was complete before the reduction and, still holding candidates,
is not complete after the reduction (judged against the post-dereference
graph, as line 184 does), then the stack prefix `s.tail` (Python `s[:-1]`)
is pushed onto the stack collection as the new current search stack. -/
theorem C7_incomplete_respawn (st : RState) (top parent : Atom)
    (rest2 : List Atom) (c : choice_point) (prefs : List (List Atom))
    (hl : alookup st.atoms parent = some (c, prefs))
    (hcne : c.cands.isEmpty = false)
    (hwc : choice_point_is_complete st c = true)
    (hcne2 : (c.reduce_atoms top).1.cands.isEmpty = false)
    (hnc : choice_point_is_complete
        (derefFold { st with atoms := (aset st.atoms parent ((c.reduce_atoms top).1, prefs)) }
          (parent :: rest2) (c.reduce_atoms top).2)
        (c.reduce_atoms top).1 = false) :
    stackPushedTop (unsatStack st (top :: parent :: rest2)) =
      some (parent :: rest2) := by
  simp only [unsatStack, hl, hcne, hwc, hcne2, List.tail_cons]
  simp only [hnc, Bool.not_false, Bool.and_true, if_true, reduceIte,
    Bool.false_eq_true, if_false, stackPushedTop, List.head?_cons]

/-- C7 witness: at `stC7w`, reducing `aP`'s choice point by `aX` keeps a
candidate, flips completeness off, and the protocol step pushes the prefix
`[aP, aRt]` as the new current search stack. -/
theorem C7_incomplete_respawn_witness :
    stackPushedTop (unsatStack stC7w [aX, aP, aRt]) = some [aP, aRt] :=
  C7_incomplete_respawn stC7w aX aP [aRt] cpP7 [[aP, aRt]]
    (by decide) (by decide) (by decide) (by decide) (by decide)

/-- C8: when the top `m` of the current stack has no ResolutionEntry and
recurs below the top, the traversal yields the synthetic cycle-breaking
constraint — a request for a configuration of `m` whose dependency and
runtime-dependency sets exclude the iteration's focus atom `a`, which in
this branch is `m` itself — and performs no push or pop: only
`current_atom` changes, so the stacks are exactly as before the step.
(The hypothesis that no atom of the stack blocks is the state the traversal
operates in: any blocking atom in the current stack fails the loop-head
assert before this branch.) -/
theorem C8_cycle_yield (amatch : Atom → Pkg → Bool) (fuel : Nat)
    (st : RState) (m : Atom) (tl : List Atom) (rest : List (List Atom))
    (hs : st.search_stacks = (m :: tl) :: rest)
    (hnb : (m :: tl).any (fun b => b.blocks) = false)
    (hm : alookup st.atoms m = none)
    (hcyc : m ∈ tl) :
    iterate_step amatch fuel st =
      Res.yielded (Yielded.cycleConstraint m m)
        { st with current_atom := some m } := by
  obtain ⟨ss, ca, fa, ats, pas, lt⟩ := st
  dsimp only at hs hm ⊢
  subst hs
  simp only [iterate_step, hnb, hm, missing_branch, Bool.false_eq_true,
    if_false, reduceIte, hcyc, if_true, if_pos]

/-- C8 witness: at `stC8w`, whose current stack is `[aC1, aR, aC1]` with
untracked top `aC1` recurring below, the step yields the cycle constraint
for `aC1` excluding `aC1` and leaves the stacks untouched. -/
theorem C8_cycle_yield_witness :
    iterate_step amF 7 stC8w =
      Res.yielded (Yielded.cycleConstraint aC1 aC1)
        { stC8w with current_atom := some aC1 } :=
  C8_cycle_yield amF 7 stC8w aC1 [aR, aC1] [] (by decide) (by decide)
    (by decide) (by decide)

/-! Invariant preservation lemmas for C9. -/

theorem stackOK_tail {s : List Atom} (h : stackOK s) : stackOK s.tail :=
  fun b hb => h b (List.tail_subset s.tail hb)

theorem stackOK_of_all {s : List Atom} (h : ∀ b ∈ s, b.blocks = false) :
    stackOK s :=
  fun b hb => h b (List.tail_subset s hb)

theorem alookup_mem {α β : Type} [DecidableEq α] {m : List (α × β)} {k : α}
    {v : β} (h : alookup m k = some v) : (k, v) ∈ m := by
  induction m with
  | nil => simp [alookup] at h
  | cons e rest ih =>
    obtain ⟨e1, e2⟩ := e
    by_cases he : e1 = k
    · subst he
      simp [alookup] at h
      subst h
      exact List.mem_cons_self _ _
    · simp only [alookup, if_neg he] at h
      exact List.mem_cons_of_mem _ (ih h)

theorem refsOKl_aset {m : List (Atom × (choice_point × List (List Atom)))}
    {a : Atom} {cp : choice_point} {refs : List (List Atom)}
    (h : refsOKl m) (hr : ∀ r ∈ refs, stackOK r) :
    refsOKl (aset m a (cp, refs)) := by
  intro e he
  rcases mem_aset he with rfl | he2
  · exact hr
  · exact h e he2

theorem refsOKl_aerase {m : List (Atom × (choice_point × List (List Atom)))}
    {k : Atom} (h : refsOKl m) : refsOKl (aerase m k) :=
  fun e he => h e (mem_aerase he)

/-- A looked-up entry's referencing stacks all satisfy `stackOK`. -/
theorem refsOKl_lookup {m : List (Atom × (choice_point × List (List Atom)))}
    {a : Atom} {cp : choice_point} {refs : List (List Atom)}
    (h : refsOKl m) (hl : alookup m a = some (cp, refs)) :
    ∀ r ∈ refs, stackOK r :=
  h (a, (cp, refs)) (alookup_mem hl)

theorem deref_core_refsOKl (st : RState) (a : Atom) (s : List Atom)
    (h : refsOKl st.atoms) : refsOKl (deref_core st a s).atoms := by
  unfold deref_core
  split
  · exact h
  · next cp refs hl =>
    dsimp only
    by_cases hk : (List.filter (fun x => !List.isSuffixOf s x) refs).isEmpty = true
    · rw [if_pos hk]
      exact refsOKl_aerase h
    · rw [if_neg hk]
      exact refsOKl_aset h fun r hr =>
        refsOKl_lookup h hl r (List.mem_of_mem_filter hr)

theorem derefFold_refsOKl (t : List Atom) (l : List Atom) (st : RState)
    (h : refsOKl st.atoms) : refsOKl (derefFold st t l).atoms := by
  induction l generalizing st with
  | nil => exact h
  | cons x xs ih =>
    unfold derefFold
    split
    · exact ih _ (deref_core_refsOKl st x t h)
    · exact ih _ h

theorem ref_core_refsOKl (st : RState) (a : Atom) (stk : List Atom)
    (h : refsOKl st.atoms) (hstk : stackOK stk) :
    refsOKl (ref_core st a stk).atoms := by
  unfold ref_core
  split
  · exact h
  · next cp refs hl =>
    split
    · exact h
    · refine refsOKl_aset h fun r hr => ?_
      rcases List.mem_append.mp hr with hr2 | hr2
      · exact refsOKl_lookup h hl r hr2
      · rw [List.mem_singleton.mp hr2]
        exact hstk

theorem ref_core_frame (st : RState) (a : Atom) (stk : List Atom) :
    (ref_core st a stk).search_stacks = st.search_stacks ∧
    (ref_core st a stk).false_atoms = st.false_atoms ∧
    (ref_core st a stk).current_atom = st.current_atom := by
  unfold ref_core
  split
  · exact ⟨rfl, rfl, rfl⟩
  · split <;> exact ⟨rfl, rfl, rfl⟩

theorem unsatStack_inv (st : RState) (s : List Atom)
    (h1 : ∀ u ∈ st.search_stacks, stackOK u) (h2 : refsOKl st.atoms)
    (hs : stackOK s) :
    (∀ u ∈ (unsatStack st s).stateOf.search_stacks, stackOK u) ∧
    refsOKl (unsatStack st s).stateOf.atoms ∧
    (∀ u ∈ (unsatStack st s).cascOf, stackOK u) := by
  rcases s with _ | ⟨top, _ | ⟨parent, rest2⟩⟩
  · exact ⟨h1, h2, fun u hu => absurd hu (List.not_mem_nil u)⟩
  · exact ⟨h1, h2, fun u hu => absurd hu (List.not_mem_nil u)⟩
  · have htail : stackOK (parent :: rest2) := stackOK_tail hs
    simp only [unsatStack]
    split
    · exact ⟨h1, h2, fun u hu => absurd hu (List.not_mem_nil u)⟩
    · next c prefs hl =>
      have hpre := refsOKl_lookup h2 hl
      split
      · refine ⟨fun u hu => ?_, derefFold_refsOKl _ _ _ (refsOKl_aset h2 hpre),
          fun u hu => ?_⟩
        · simp only [StackOut.stateOf] at hu
          rw [(derefFold_frame _ _ _).2.2.1] at hu
          exact h1 u hu
        · simp only [StackOut.cascOf, List.mem_singleton] at hu
          subst hu
          exact htail
      · split
        · refine ⟨fun u hu => ?_, derefFold_refsOKl _ _ _ (refsOKl_aset h2 hpre),
            fun u hu => ?_⟩
          · simp only [StackOut.stateOf] at hu
            rw [(derefFold_frame _ _ _).2.2.1] at hu
            exact h1 u hu
          · simp only [StackOut.cascOf, List.mem_singleton] at hu
            subst hu
            exact htail
        · split
          · refine ⟨fun u hu => ?_,
              derefFold_refsOKl _ _ _ (refsOKl_aset h2 hpre),
              fun u hu => absurd hu (List.not_mem_nil u)⟩
            simp only [StackOut.stateOf, List.mem_cons] at hu
            rcases hu with rfl | hu
            · exact htail
            · rw [(derefFold_frame _ _ _).2.2.1] at hu
              exact h1 u hu
          · refine ⟨fun u hu => ?_,
              derefFold_refsOKl _ _ _ (refsOKl_aset h2 hpre),
              fun u hu => absurd hu (List.not_mem_nil u)⟩
            simp only [StackOut.stateOf] at hu
            rw [(derefFold_frame _ _ _).2.2.1] at hu
            exact h1 u hu

theorem unsatLoop_inv (a : Atom) (msg : String) (fuel : Nat) :
    ∀ (st : RState) (wl : List (List Atom)) (bail : Bool),
      (∀ u ∈ st.search_stacks, stackOK u) → refsOKl st.atoms →
      (∀ u ∈ wl, stackOK u) →
      (∀ u ∈ (unsatLoop a msg fuel st wl bail).state.search_stacks, stackOK u) ∧
      refsOKl (unsatLoop a msg fuel st wl bail).state.atoms := by
  induction fuel with
  | zero =>
    intro st wl bail h1 h2 hwl
    cases wl with
    | nil => rw [unsatLoop, unsatFinish_state]; exact ⟨h1, h2⟩
    | cons s rest => exact ⟨h1, h2⟩
  | succ fuel ih =>
    intro st wl bail h1 h2 hwl
    cases wl with
    | nil => rw [unsatLoop, unsatFinish_state]; exact ⟨h1, h2⟩
    | cons s rest =>
      rw [unsatLoop]
      have hstep := unsatStack_inv st s h1 h2 (hwl s (List.mem_cons_self s rest))
      rcases h : unsatStack st s with ⟨e, st2⟩ | ⟨st2, casc⟩ <;> rw [h] at hstep
      · exact ⟨hstep.1, hstep.2.1⟩
      · simp only [StackOut.stateOf, StackOut.cascOf] at hstep
        simp only []
        refine ih st2 (rest ++ casc) (bail || s.isEmpty) hstep.1 hstep.2.1 ?_
        intro u hu
        rcases List.mem_append.mp hu with hu2 | hu2
        · exact hwl u (List.mem_cons_of_mem s hu2)
        · exact hstep.2.2 u hu2

theorem unsat_inv (st : RState) (a : Atom) (msg : String) (perm : Bool)
    (fuel : Nat) (h1 : ∀ u ∈ st.search_stacks, stackOK u)
    (h2 : refsOKl st.atoms) :
    (∀ u ∈ (unsatisfiable_atom st a msg perm fuel).state.search_stacks,
      stackOK u) ∧
    refsOKl (unsatisfiable_atom st a msg perm fuel).state.atoms := by
  unfold unsatisfiable_atom
  split
  · exact ⟨h1, h2⟩
  · cases perm
    · dsimp only
      split
      · exact ⟨h1, h2⟩
      · next cp refs hl =>
        exact unsatLoop_inv a msg fuel _ refs false h1 h2
          (refsOKl_lookup h2 hl)
    · dsimp only
      split
      · exact ⟨h1, h2⟩
      · next cp refs hl =>
        exact unsatLoop_inv a msg fuel _ refs false h1 h2
          (refsOKl_lookup h2 hl)

theorem scanDeps_inv (t : List Atom) (l : List Atom) :
    ∀ st : RState, refsOKl st.atoms → stackOK t →
      refsOKl (scanDeps st t l).1.atoms ∧
      (scanDeps st t l).1.search_stacks = st.search_stacks := by
  induction l with
  | nil => intro st h2 ht; exact ⟨h2, rfl⟩
  | cons x xs ih =>
    intro st h2 ht
    rw [scanDeps]
    split
    · exact ⟨h2, rfl⟩
    · have hrc := ref_core_refsOKl st x t h2 ht
      have hfr := (ref_core_frame st x t).1
      obtain ⟨ha, hb⟩ := ih (ref_core st x t) hrc ht
      exact ⟨ha, hb.trans hfr⟩

theorem missing_branch_inv (amatch : Atom → Pkg → Bool) (fuel : Nat)
    (st : RState) (a : Atom) (ha : a.blocks = false)
    (h1 : ∀ u ∈ st.search_stacks, stackOK u) (h2 : refsOKl st.atoms) :
    (∀ u ∈ (missing_branch amatch fuel st a).state.search_stacks, stackOK u) ∧
    refsOKl (missing_branch amatch fuel st a).state.atoms := by
  unfold missing_branch
  split
  · exact ⟨h1, h2⟩
  · split
    · exact ⟨h1, h2⟩
    · split
      · exact ⟨h1, h2⟩
      · rw [ha]
        simp only [Bool.false_eq_true, if_false, reduceIte]
        exact ⟨h1, h2⟩


theorem ref_stack_inv (st : RState) (a : Atom) (stk : List Atom)
    (h2 : refsOKl st.atoms) (hstk : stackOK stk) :
    refsOKl (ref_stack_for_atom st a stk).state.atoms ∧
    (ref_stack_for_atom st a stk).state.search_stacks = st.search_stacks := by
  unfold ref_stack_for_atom
  split
  · exact ⟨h2, rfl⟩
  · exact ⟨ref_core_refsOKl st a stk h2 hstk, (ref_core_frame st a stk).1⟩

theorem satisfy_inv (st : RState) (a : Atom) (ms : List Pkg) (fuel : Nat)
    (h1 : ∀ u ∈ st.search_stacks, stackOK u) (h2 : refsOKl st.atoms) :
    (∀ u ∈ (satisfy_atom st a ms fuel).state.search_stacks, stackOK u) ∧
    refsOKl (satisfy_atom st a ms fuel).state.atoms := by
  unfold satisfy_atom
  split
  · exact ⟨h1, h2⟩
  · split
    · exact ⟨h1, h2⟩
    · split
      · exact ⟨h1, h2⟩
      · rename_i u1 r0 u2 top xs heq hne
        have hcurmem : (top :: xs) ∈ st.search_stacks := by
          rw [heq]; exact List.mem_cons_self _ _
        have hcur : stackOK (top :: xs) := h1 _ hcurmem
        dsimp only
        have hlem := ref_stack_inv (RState.mk st.search_stacks st.current_atom st.false_atoms (aset st.atoms a (⟨a, ms⟩, [])) (aset st.pkg_atoms a.key ((alookup st.pkg_atoms a.key).getD [] ++ [⟨a, ms⟩])) st.last_t) a (top :: xs) (refsOKl_aset h2 (fun r hr => absurd hr (List.not_mem_nil r))) hcur
        split
        · rename_i st2 hrf
          rw [hrf] at hlem
          simp only [Res.state] at hlem
          have h1b : ∀ u ∈ st2.search_stacks, stackOK u := by
            intro u hu
            rw [hlem.2] at hu
            exact h1 u hu
          split
          · have hun := unsat_inv st2 a "None supplied" true fuel h1b hlem.1
            split
            · rename_i st3 hu3
              rw [hu3] at hun
              simp only [Res.state] at hun
              split
              · split
                · exact ⟨hun.1, hun.2⟩
                · rename_i c0 r1 hs3
                  refine ⟨fun u hu => ?_, hun.2⟩
                  simp only [Res.state, List.mem_cons] at hu
                  rcases hu with rfl | hu
                  · exact stackOK_tail (hun.1 c0 (by rw [hs3]; exact List.mem_cons_self _ _))
                  · exact hun.1 u (by rw [hs3]; exact List.mem_cons_of_mem _ hu)
              · exact ⟨hun.1, hun.2⟩
            · exact unsat_inv st2 a "None supplied" true fuel h1b hlem.1
          · exact ⟨h1b, hlem.1⟩
        · exact ⟨fun u hu => h1 u (by rw [hlem.2] at hu; exact hu), hlem.1⟩

theorem iterate_step_inv (amatch : Atom → Pkg → Bool) (fuel : Nat)
    (st : RState) (h1 : ∀ u ∈ st.search_stacks, stackOK u)
    (h2 : refsOKl st.atoms) :
    (∀ u ∈ (iterate_step amatch fuel st).state.search_stacks, stackOK u) ∧
    refsOKl (iterate_step amatch fuel st).state.atoms := by
  unfold iterate_step
  split
  · exact ⟨h1, h2⟩
  · split
    · rename_i r0 unused heq
      have hrest : ∀ u ∈ r0, stackOK u := by
        intro u hu
        exact h1 u (by rw [heq]; exact List.mem_cons_of_mem _ hu)
      split
      · exact ⟨hrest, h2⟩
      · exact ⟨hrest, h2⟩
    · rename_i r0 unused a as heq
      split
      · exact ⟨h1, h2⟩
      · rename_i hnb
        simp only [List.any_eq_true, not_exists, not_and, Bool.not_eq_true] at hnb
        have hall : ∀ b ∈ a :: as, b.blocks = false := hnb
        split
        · exact missing_branch_inv amatch fuel st a
            (hall a (List.mem_cons_self _ _)) h1 h2
        · rename_i c refs2 hla
          dsimp only
          split
          · exact ⟨h1, h2⟩
          · rename_i p ps hc
            have hsd := scanDeps_inv (a :: as) (p.depends ++ p.rdepends)
              (RState.mk st.search_stacks st.current_atom st.false_atoms st.atoms st.pkg_atoms (some (a :: as)))
              h2 (stackOK_of_all hall)
            split
            · rename_i x hx
              refine missing_branch_inv amatch fuel _ a
                (hall a (List.mem_cons_self _ _)) ?_ hsd.1
              intro u hu
              simp only [List.mem_cons] at hu
              rcases hu with rfl | hu
              · exact fun b hb => hall b hb
              · exact h1 u (by rw [heq]; exact List.mem_cons_of_mem _ hu)
            · split
              · refine ⟨fun u hu => ?_, hsd.1⟩
                simp only [Res.state, List.tail_cons, List.mem_cons] at hu
                rcases hu with rfl | hu
                · exact fun b hb => hall b (List.mem_cons_of_mem _ (List.tail_subset _ hb))
                · exact h1 u (by rw [heq]; exact List.mem_cons_of_mem _ hu)
              · refine ⟨fun u hu => ?_, hsd.1⟩
                simp only [Res.state, List.tail_cons, List.mem_cons] at hu
                rcases hu with rfl | hu
                · exact fun b hb => hall b (List.mem_cons_of_mem _ (List.tail_subset _ hb))
                · exact h1 u (by rw [heq]; exact List.mem_cons_of_mem _ hu)

theorem add_root_inv (st : RState) (a : Atom)
    (h1 : ∀ u ∈ st.search_stacks, stackOK u) (h2 : refsOKl st.atoms) :
    (∀ u ∈ (add_root_atom st a).state.search_stacks, stackOK u) ∧
    refsOKl (add_root_atom st a).state.atoms := by
  unfold add_root_atom
  split
  · exact ⟨h1, h2⟩
  · refine ⟨fun u hu => ?_, h2⟩
    simp only [Res.state, List.mem_cons] at hu
    rcases hu with rfl | hu
    · exact fun b hb => absurd hb (List.not_mem_nil b)
    · exact h1 u hu

/-- C9: in every state reachable from the fresh resolver through add_root,
traversal steps, satisfy and the unsatisfiability protocol, no search stack
contains an atom with `blocks = true` except possibly as its topmost element
(the head, in this embedding).  The loop-head assert of the source — which
is stricter, rejecting even a topmost blocker — aborts any iteration that
could otherwise push a dependency on top of a blocking atom, so the
invariant is maintained; referencing stacks, whose prefixes are re-spawned
as fresh search stacks during backtracking, satisfy the same shape
invariant inductively. -/
theorem C9_no_blocker_mid_stack (st : RState) (h : Reach st) :
    ∀ s ∈ st.search_stacks, ∀ b ∈ s.tail, b.blocks = false := by
  suffices H : (∀ s ∈ st.search_stacks, stackOK s) ∧ refsOKl st.atoms by
    exact H.1
  induction h with
  | init =>
    constructor
    · intro s hs
      simp only [initState, List.mem_singleton] at hs
      subst hs
      exact fun b hb => absurd hb (List.not_mem_nil b)
    · intro e he
      simp only [initState] at he
      exact absurd he (List.not_mem_nil e)
  | root st2 a _ ih => exact add_root_inv st2 a ih.1 ih.2
  | step st2 amatch fuel _ ih => exact iterate_step_inv amatch fuel st2 ih.1 ih.2
  | sat st2 a ms fuel _ ih => exact satisfy_inv st2 a ms fuel ih.1 ih.2
  | fail st2 a msg perm fuel _ ih => exact unsat_inv st2 a msg perm fuel ih.1 ih.2

/-- C9 witness: the trace state `s6` (current stack `[aB, aC1, aR]`) is
reachable through the public operations, and the theorem applied there
shows its below-top elements do not block. -/
theorem C9_no_blocker_mid_stack_witness :
    aC1.blocks = false ∧ aR.blocks = false := by
  have h1 : Reach s1 := Reach.root initState aR Reach.init
  have h2 : Reach s2 := Reach.step s1 amF 9 h1
  have h3 : Reach s3 := Reach.sat s2 aR [pkgP] 9 h2
  have h4 : Reach s4 := Reach.step s3 amF 9 h3
  have h5 : Reach s5 := Reach.sat s4 aC1 [pkgQ1, pkgQ2] 9 h4
  have h6 : Reach s6 := Reach.step s5 amF 9 h5
  have h := C9_no_blocker_mid_stack s6 h6
  exact ⟨h [aB, aC1, aR] (by decide) aC1 (by decide),
    h [aB, aC1, aR] (by decide) aR (by decide)⟩
